import Mathlib

/-!
Shallow embedding of the Obsidian-Google-Drive sync plugin (src/unnamed/part_000,
the plugin main module, and src/helpers/push.ts) and proofs about its
operation log, pull reconciler and push reconciler.

JavaScript objects `Record<string, T>` are modelled as insertion-ordered
association lists `List (String × T)`; `obj[k]` is `lookupKey`, assignment is
`setKey`, and the `delete` operator is `delKey`.
-/

/-- The three pending-operation kinds stored in the Operation Log
(`operations: Record<string, "create" | "delete" | "modify">`). An absent
entry plays the role of the spec's `none` state; no `none` value is ever
stored, which the model makes structurally impossible. -/
inductive Op where
  | create
  | delete
  | modify
deriving DecidableEq, Repr

/-- Lookup of a key in a JS-object model (first matching key). -/
def lookupKey {α : Type} : List (String × α) → String → Option α
  | [], _ => none
  | (k0, v) :: rest, k => if k0 = k then some v else lookupKey rest k

/-- JS assignment `obj[k] = v`: overwrite the value in place if the key is
present, else append the new key at the end. -/
def setKey {α : Type} : List (String × α) → String → α → List (String × α)
  | [], k, v => [(k, v)]
  | (k0, v0) :: rest, k, v =>
    if k0 = k then (k, v) :: rest else (k0, v0) :: setKey rest k v

/-- JS `delete obj[k]`. -/
def delKey {α : Type} : List (String × α) → String → List (String × α)
  | [], _ => []
  | (k0, v0) :: rest, k =>
    if k0 = k then delKey rest k else (k0, v0) :: delKey rest k

theorem lookupKey_setKey_self {α : Type} (m : List (String × α)) (k : String) (v : α) :
    lookupKey (setKey m k v) k = some v := by
  induction m with
  | nil => simp [setKey, lookupKey]
  | cons kv rest ih =>
    obtain ⟨k0, v0⟩ := kv
    by_cases hk : k0 = k
    · subst hk
      simp [setKey, lookupKey]
    · simp [setKey, lookupKey, hk, ih]

theorem lookupKey_setKey_ne {α : Type} (m : List (String × α)) {k k' : String} (v : α)
    (h : k' ≠ k) : lookupKey (setKey m k v) k' = lookupKey m k' := by
  induction m with
  | nil => simp [setKey, lookupKey, Ne.symm h]
  | cons kv rest ih =>
    obtain ⟨k0, v0⟩ := kv
    by_cases hk : k0 = k
    · subst hk
      have hne : ¬(k0 = k') := fun hx => h hx.symm
      simp [setKey, lookupKey, hne]
    · by_cases hk' : k0 = k'
      · subst hk'
        simp [setKey, lookupKey, hk]
      · simp [setKey, lookupKey, hk, hk', ih]

theorem lookupKey_delKey_self {α : Type} (m : List (String × α)) (k : String) :
    lookupKey (delKey m k) k = none := by
  induction m with
  | nil => rfl
  | cons kv rest ih =>
    obtain ⟨k0, v0⟩ := kv
    by_cases hk : k0 = k
    · simp [delKey, hk, ih]
    · simp [delKey, lookupKey, hk, ih]

theorem lookupKey_delKey_ne {α : Type} (m : List (String × α)) {k k' : String}
    (h : k' ≠ k) : lookupKey (delKey m k) k' = lookupKey m k' := by
  induction m with
  | nil => rfl
  | cons kv rest ih =>
    obtain ⟨k0, v0⟩ := kv
    by_cases hk : k0 = k
    · subst hk
      have hne : ¬(k0 = k') := fun hx => h hx.symm
      simp [delKey, lookupKey, hne, ih]
    · by_cases hk' : k0 = k'
      · subst hk'
        simp [delKey, lookupKey, hk]
      · simp [delKey, lookupKey, hk, hk', ih]

/-- Character-list test: does `l` begin with `pre`. -/
def chLead : List Char → List Char → Bool
  | [], _ => true
  | _ :: _, [] => false
  | a :: as, b :: bs => decide (a = b) && chLead as bs

/-- Character-list test: does `l` contain `pat` as a contiguous run. -/
def chInf (pat : List Char) : List Char → Bool
  | [] => pat.isEmpty
  | c :: rest => chLead pat (c :: rest) || chInf pat rest

/-- JS `p.startsWith(q)`. -/
def strSW (p q : String) : Bool := chLead q.data p.data

/-- JS `p.endsWith(q)`. -/
def strEW (p q : String) : Bool := chLead q.data.reverse p.data.reverse

/-- JS `p.includes(q)`. -/
def strHas (p q : String) : Bool := chInf q.data p.data

/-- The exclusion patterns of `shouldSyncFile` in the plugin main module. -/
def excludePatterns : List String :=
  [".DS_Store", ".git/", "node_modules/", ".obsidian/workspace.json",
   ".obsidian/workspace-mobile.json"]

/-- `shouldSyncFile(path)`: a path is synced unless some exclusion pattern
matches it (patterns ending in a slash match as a path prepend, the others as
a substring; this mirrors the `pattern.endsWith('/') ? path.startsWith(pattern)
: path.includes(pattern)` test). -/
def shouldSyncFile (path : String) : Bool :=
  !(excludePatterns.any fun pattern =>
    if strEW pattern "/" then strSW path pattern else strHas path pattern)

/-- The Operation Log. -/
abbrev OpLog := List (String × Op)

/-- `handleCreate`: the vault `create` event handler. The boolean records
whether the created entry is a `TFile` (as opposed to a folder). -/
def handleCreate (isFile : Bool) (path : String) (ops : OpLog) : OpLog :=
  if shouldSyncFile path then
    if lookupKey ops path = some Op.delete then
      if isFile then setKey ops path Op.modify else delKey ops path
    else setKey ops path Op.create
  else ops

/-- `handleDelete`: the vault `delete` event handler. -/
def handleDelete (path : String) (ops : OpLog) : OpLog :=
  if shouldSyncFile path then
    if lookupKey ops path = some Op.create then delKey ops path
    else setKey ops path Op.delete
  else ops

/-- `handleModify`: the vault `modify` event handler. -/
def handleModify (path : String) (ops : OpLog) : OpLog :=
  if shouldSyncFile path then
    match lookupKey ops path with
    | some Op.create => ops
    | some Op.modify => ops
    | _ => setKey ops path Op.modify
  else ops

/-- One local mutation event on a fixed path. -/
inductive LocalEvent where
  | createE (isFile : Bool)
  | deleteE
  | modifyE
deriving DecidableEq, Repr

/-- Dispatch one event to the corresponding handler. -/
def opStep (path : String) (ops : OpLog) : LocalEvent → OpLog
  | .createE isFile => handleCreate isFile path ops
  | .deleteE => handleDelete path ops
  | .modifyE => handleModify path ops

/-- Replay a sequence of local events through the handlers. -/
def replayEvents (path : String) (ops : OpLog) (es : List LocalEvent) : OpLog :=
  es.foldl (opStep path) ops

/-- One step of the §4.1 transition table, stated from the spec: `none` is the
absent entry. The table specifies a create event only on states `delete` and
`none`; on the unspecified combinations (create on pending `create`/`modify`)
the table is partial and this function returns `none` (outer level). -/
def specStepP (st : Option Op) : LocalEvent → Option (Option Op)
  | .createE isFile =>
    match st with
    | some Op.delete => some (if isFile then some Op.modify else none)
    | none => some (some Op.create)
    | _ => none
  | .deleteE =>
    some (match st with
      | some Op.create => none
      | _ => some Op.delete)
  | .modifyE =>
    some (match st with
      | some Op.create => st
      | some Op.modify => st
      | _ => some Op.modify)

/-- Replay of the §4.1 table; `none` if the sequence hits an unspecified
transition. -/
def specReplay (st : Option Op) : List LocalEvent → Option (Option Op)
  | [] => some st
  | e :: es =>
    match specStepP st e with
    | none => none
    | some st2 => specReplay st2 es

theorem opStep_agrees {path : String} {ops : OpLog} {e : LocalEvent} {st2 : Option Op}
    (hsync : shouldSyncFile path = true)
    (hspec : specStepP (lookupKey ops path) e = some st2) :
    lookupKey (opStep path ops e) path = st2 := by
  cases e with
  | createE isFile =>
    simp only [opStep, handleCreate, hsync, if_true]
    rcases hst : lookupKey ops path with _ | op
    · rw [hst] at hspec
      simp only [specStepP] at hspec
      cases hspec
      simp [hst, lookupKey_setKey_self]
    · rw [hst] at hspec
      cases op with
      | create => exact absurd hspec (by simp [specStepP])
      | delete =>
        simp only [specStepP, Option.some.injEq] at hspec
        subst hspec
        cases isFile
        · simp [hst, lookupKey_delKey_self]
        · simp [hst, lookupKey_setKey_self]
      | modify => exact absurd hspec (by simp [specStepP])
  | deleteE =>
    simp only [opStep, handleDelete, hsync, if_true]
    rcases hst : lookupKey ops path with _ | op
    · simp only [hst, specStepP, Option.some.injEq] at hspec
      subst hspec
      simp [hst, lookupKey_setKey_self]
    · cases op <;>
        simp only [hst, specStepP, Option.some.injEq] at hspec <;>
        subst hspec <;>
        simp [hst, lookupKey_delKey_self, lookupKey_setKey_self]
  | modifyE =>
    simp only [opStep, handleModify, hsync, if_true]
    rcases hst : lookupKey ops path with _ | op
    · simp only [hst, specStepP, Option.some.injEq] at hspec
      subst hspec
      simp [hst, lookupKey_setKey_self]
    · cases op <;>
        simp only [hst, specStepP, Option.some.injEq] at hspec <;>
        subst hspec <;>
        simp [hst, lookupKey_setKey_self]

/-- C1: for every path accepted by `shouldSyncFile` and every sequence of
local create/delete/modify events on that path covered by the §4.1 transition
table, replaying the event handlers leaves the Operation Log entry for the
path exactly as prescribed by applying the table in order: a create event on
pending `delete` yields `modify` for a file and removes the entry for a
folder, and yields `create` from no entry; a delete event on pending `create`
removes the entry and otherwise yields `delete`; a modify event is a no-op on
pending `create` or `modify` and otherwise yields `modify`. Entries hold only
`create`/`delete`/`modify`, so no `none` entry is ever stored (structurally
enforced by the `Op` type). -/
theorem operation_log_matches_spec_table (path : String) (ops : OpLog)
    (es : List LocalEvent) (r : Option Op)
    (hsync : shouldSyncFile path = true)
    (hspec : specReplay (lookupKey ops path) es = some r) :
    lookupKey (replayEvents path ops es) path = r := by
  induction es generalizing ops with
  | nil =>
    simp only [specReplay] at hspec
    cases hspec
    rfl
  | cons e es ih =>
    simp only [specReplay] at hspec
    rcases hstep : specStepP (lookupKey ops path) e with _ | st2
    · rw [hstep] at hspec
      simp at hspec
    · rw [hstep] at hspec
      have hag := opStep_agrees hsync hstep
      simp only [replayEvents, List.foldl_cons]
      have := ih (opStep path ops e) (by rwa [hag])
      simpa [replayEvents] using this

/-- C1 witness: on path `notes/a.md`, from an empty log, the sequence
delete-then-create-of-a-file is covered by the table, ends in `modify` per the
table, and the handlers produce exactly that entry. -/
theorem operation_log_matches_spec_table_witness :
    shouldSyncFile "notes/a.md" = true ∧
      specReplay (lookupKey ([] : OpLog) "notes/a.md")
        [LocalEvent.deleteE, LocalEvent.createE true] = some (some Op.modify) ∧
      lookupKey (replayEvents "notes/a.md" []
        [LocalEvent.deleteE, LocalEvent.createE true]) "notes/a.md" = some Op.modify :=
  ⟨by decide, by decide,
    operation_log_matches_spec_table "notes/a.md" [] _ _ (by decide) (by decide)⟩

/-- Restore step shared by the local-apply helpers: the source saves
`oldOperation` before the vault write, assigns it back afterwards, and deletes
the key when the saved value was `undefined`. -/
def restoreOp (ops : OpLog) (path : String) : Option Op → OpLog
  | some v => setKey ops path v
  | none => delKey ops path

/-- `createFolder(path)`: `vault.createFolder` fires a `create` event for the
folder path (handled by `handleCreate`), then the saved entry is restored. -/
def createFolderOps (ops : OpLog) (path : String) : OpLog :=
  restoreOp (handleCreate false path ops) path (lookupKey ops path)

/-- `createFile(path, ...)`: `vault.createBinary` fires a `create` event for a
file, then the saved entry is restored. -/
def createFileOps (ops : OpLog) (path : String) : OpLog :=
  restoreOp (handleCreate true path ops) path (lookupKey ops path)

/-- `modifyFile(file, ...)`: `vault.modifyBinary` fires a `modify` event, then
the saved entry is restored. -/
def modifyFileOps (ops : OpLog) (path : String) : OpLog :=
  restoreOp (handleModify path ops) path (lookupKey ops path)

/-- `upsertFile(path, ...)`: `adapter.writeBinary` surfaces as a `modify`
event when the path already existed and as a file `create` event otherwise,
then the saved entry is restored. -/
def upsertFileOps (existedBefore : Bool) (ops : OpLog) (path : String) : OpLog :=
  restoreOp (if existedBefore then handleModify path ops else handleCreate true path ops)
    path (lookupKey ops path)

theorem restoreOp_lookup (ops : OpLog) (path : String) (old : Option Op) :
    lookupKey (restoreOp ops path old) path = old := by
  cases old with
  | none => simp [restoreOp, lookupKey_delKey_self]
  | some v => simp [restoreOp, lookupKey_setKey_self]

/-- C10: each reconciler-side local-apply helper (`createFolder`, `createFile`,
`modifyFile`, `upsertFile`) leaves the Operation Log entry for its path exactly
as it was before the call — same kind if present, absent if absent — even
though the underlying vault write fires the local mutation-event handlers
(modelled here by running the corresponding handler before the restore step). -/
theorem local_apply_helpers_preserve_log (ops : OpLog) (path : String)
    (existedBefore : Bool) :
    lookupKey (createFolderOps ops path) path = lookupKey ops path ∧
      lookupKey (createFileOps ops path) path = lookupKey ops path ∧
      lookupKey (modifyFileOps ops path) path = lookupKey ops path ∧
      lookupKey (upsertFileOps existedBefore ops path) path = lookupKey ops path :=
  ⟨restoreOp_lookup .., restoreOp_lookup .., restoreOp_lookup .., restoreOp_lookup ..⟩

/-- What the vault lookup for a path can report during pull's upsert phase:
`vault.getFileByPath` returned a `TFile`, or only `adapter.exists` was true, or
neither (the JS value `localFile` is then falsy). -/
inductive LocalPresence where
  | tfile
  | existsOnly
  | absent
deriving DecidableEq, Repr

/-- Which kind of local write the per-file upsert handler performed. -/
inductive WriteKind where
  | viaModifyFile
  | viaAdapterWrite
deriving DecidableEq, Repr

/-- Result of the per-file handler of pull's upsert phase: whether
`drive.getFile` was called (a download), which local write happened if any,
and the resulting Operation Log. -/
structure UpsertOutcome where
  downloaded : Bool
  written : Option WriteKind
  ops : OpLog
deriving Repr

/-- Per-file handler of pull's upsert phase (`upsertFiles` in the pull
reconciler): skip when the metadata has no path annotated; return early when
the local file is truthy and the log says `modify`; flip `create` to `modify`
and return when the local file is truthy and the log says `create`; otherwise
download and write the remote content through `modifyFile` (existing `TFile`)
or `upsertFile`. -/
def upsertStep (ops : OpLog) (hasPathProp : Bool) (path : String)
    (local_ : LocalPresence) : UpsertOutcome :=
  if !hasPathProp then ⟨false, none, ops⟩
  else
    let localTruthy := local_ ≠ LocalPresence.absent
    let operation := lookupKey ops path
    if localTruthy ∧ operation = some Op.modify then ⟨false, none, ops⟩
    else if localTruthy ∧ operation = some Op.create then
      ⟨false, none, setKey ops path Op.modify⟩
    else
      match local_ with
      | LocalPresence.tfile =>
        ⟨true, some WriteKind.viaModifyFile, modifyFileOps ops path⟩
      | LocalPresence.existsOnly =>
        ⟨true, some WriteKind.viaAdapterWrite, upsertFileOps true ops path⟩
      | LocalPresence.absent =>
        ⟨true, some WriteKind.viaAdapterWrite, upsertFileOps false ops path⟩

/-- C3 counterexample: a remote-origin file whose path has Operation Log state
`modify` but no longer exists locally IS downloaded and written (the code's
skip requires the local file to be truthy as well), refuting the claim that
log state `modify` alone prevents the download and write. -/
theorem upsert_modify_without_local_downloads :
    (upsertStep [("a.md", Op.modify)] true "a.md" LocalPresence.absent).downloaded
        = true ∧
      (upsertStep [("a.md", Op.modify)] true "a.md" LocalPresence.absent).written
        = some WriteKind.viaAdapterWrite := by
  constructor <;> rfl

/-- C3 (amended): during pull's upsert phase, for every remote-origin file
whose path EXISTS LOCALLY and has Operation Log state `modify`, the local
content is retained: no download of the remote content occurs, no local write
occurs, and the Operation Log (hence the `modify` entry) is left untouched. -/
theorem upsert_skips_locally_modified (ops : OpLog) (path : String)
    (local_ : LocalPresence) (hasPathProp : Bool)
    (hlocal : local_ ≠ LocalPresence.absent)
    (hop : lookupKey ops path = some Op.modify) :
    upsertStep ops hasPathProp path local_ =
      ⟨false, none, ops⟩ := by
  cases hasPathProp with
  | false => rfl
  | true => simp [upsertStep, hlocal, hop]

/-- C3 witness: concrete locally present, locally modified file. -/
theorem upsert_skips_locally_modified_witness :
    (LocalPresence.tfile ≠ LocalPresence.absent ∧
        lookupKey [("b.md", Op.modify)] "b.md" = some Op.modify) ∧
      upsertStep [("b.md", Op.modify)] true "b.md" LocalPresence.tfile
        = ⟨false, none, [("b.md", Op.modify)]⟩ :=
  ⟨⟨by decide, by decide⟩,
    upsert_skips_locally_modified [("b.md", Op.modify)] "b.md" LocalPresence.tfile
      true (by decide) (by decide)⟩

/-- C4: during pull's upsert phase, for every remote-origin file whose path
exists locally and has Operation Log state `create`, the log entry is flipped
to `modify` and no download or local write occurs. -/
theorem upsert_flips_create_to_modify (ops : OpLog) (path : String)
    (local_ : LocalPresence)
    (hlocal : local_ ≠ LocalPresence.absent)
    (hop : lookupKey ops path = some Op.create) :
    (upsertStep ops true path local_).downloaded = false ∧
      (upsertStep ops true path local_).written = none ∧
      lookupKey (upsertStep ops true path local_).ops path = some Op.modify := by
  simp [upsertStep, hlocal, hop, lookupKey_setKey_self]

/-- C4 witness: concrete locally present, locally created file. -/
theorem upsert_flips_create_to_modify_witness :
    (LocalPresence.existsOnly ≠ LocalPresence.absent ∧
        lookupKey [("c.md", Op.create)] "c.md" = some Op.create) ∧
      ((upsertStep [("c.md", Op.create)] true "c.md" LocalPresence.existsOnly).downloaded
          = false ∧
        (upsertStep [("c.md", Op.create)] true "c.md" LocalPresence.existsOnly).written
          = none ∧
        lookupKey (upsertStep [("c.md", Op.create)] true "c.md"
          LocalPresence.existsOnly).ops "c.md" = some Op.modify) :=
  ⟨⟨by decide, by decide⟩,
    upsert_flips_create_to_modify [("c.md", Op.create)] "c.md"
      LocalPresence.existsOnly (by decide) (by decide)⟩

/-- What `vault.getAbstractFileByPath` reports. -/
inductive VaultKind where
  | vfile
  | vfolder
deriving DecidableEq, Repr

/-- Result of resolving one entry of the remote removal set during pull
(the body of the `deletions` map): the updated Remote-ID Index, the updated
Operation Log, and the local entry (by path) handed to the deletion phase —
`none` when the map callback returned `undefined`/`null`. -/
structure RemovalOutcome where
  driveIdToPath : List (String × String)
  ops : OpLog
  action : Option String
deriving Repr

/-- Resolution of one removed change during pull (src lines 65-79): look the
id up in `driveIdToPath` (a falsy path — absent or empty — returns early
without touching the index), drop the index entry, and when no local entry
exists while the Operation Log already records `delete` for the path, clear
the redundant log entry and produce no deletion action. -/
def processRemoval (dp : List (String × String)) (ops : OpLog)
    (vaultGet : String → Option VaultKind) (fileId : String) : RemovalOutcome :=
  match lookupKey dp fileId with
  | none => ⟨dp, ops, none⟩
  | some path =>
    if path = "" then ⟨dp, ops, none⟩
    else
      let dp2 := delKey dp fileId
      match vaultGet path with
      | some _ => ⟨dp2, ops, some path⟩
      | none =>
        if lookupKey ops path = some Op.delete then ⟨dp2, delKey ops path, none⟩
        else ⟨dp2, ops, none⟩

/-- C8: during pull, a remote removal whose id resolves through the Remote-ID
Index to a path with no existing local entry and whose Operation Log state is
`delete` clears the log entry, produces no local deletion action, and drops
the index entry for that id. -/
theorem redundant_delete_collapses (dp : List (String × String)) (ops : OpLog)
    (vaultGet : String → Option VaultKind) (fileId path : String)
    (hres : lookupKey dp fileId = some path) (hne : path ≠ "")
    (hlocal : vaultGet path = none)
    (hop : lookupKey ops path = some Op.delete) :
    (processRemoval dp ops vaultGet fileId).action = none ∧
      lookupKey (processRemoval dp ops vaultGet fileId).ops path = none ∧
      lookupKey (processRemoval dp ops vaultGet fileId).driveIdToPath fileId = none := by
  simp [processRemoval, hres, hne, hlocal, hop, lookupKey_delKey_self]

/-- C8 witness: a concrete redundant removal. -/
theorem redundant_delete_collapses_witness :
    (lookupKey [("id7", "gone.md")] "id7" = some "gone.md" ∧
        lookupKey [("gone.md", Op.delete)] "gone.md" = some Op.delete) ∧
      ((processRemoval [("id7", "gone.md")] [("gone.md", Op.delete)]
          (fun _ => none) "id7").action = none ∧
        lookupKey (processRemoval [("id7", "gone.md")] [("gone.md", Op.delete)]
          (fun _ => none) "id7").ops "gone.md" = none ∧
        lookupKey (processRemoval [("id7", "gone.md")] [("gone.md", Op.delete)]
          (fun _ => none) "id7").driveIdToPath "id7" = none) :=
  ⟨⟨by decide, by decide⟩,
    redundant_delete_collapses [("id7", "gone.md")] [("gone.md", Op.delete)]
      (fun _ => none) "id7" "gone.md" rfl (by decide) rfl (by decide)⟩

/-- One resolved entry of the remote removal set as seen by pull's deletion
phase: its vault path, whether it is a folder, and (for folders) the paths of
its current children. -/
structure DelEntry where
  path : String
  isFolder : Bool
  children : List String
deriving DecidableEq, Repr

/-- JS truthiness of a string-map lookup (`undefined` and `""` are falsy). -/
def jsTruthy : Option String → Bool
  | none => false
  | some s => !(s = "")

/-- Result of the selection filters of pull's `deleteFiles` step. -/
structure DeleteFilesOutcome where
  deletedFolders : List String
  deletedFiles : List String
  ops : OpLog
deriving Repr

/-- The selection filters of pull's `deleteFiles` step (src lines 105-137).
Files: an entry whose log state is `modify` is excluded, and flipped to
`create` when the path has no current remote id. Folders: an entry whose path
has a current remote id is excluded; an entry with a child not in the deletion
set is kept for local deletion; otherwise it is excluded and its log entry is
set to `create`. The kept folders and files are then handed to
`deleteFilesMinimumOperations`. -/
def deleteFilesSelect (deletions : List (Option DelEntry))
    (pathToId : String → Option String) (ops : OpLog) : DeleteFilesOutcome :=
  let fileStep := (deletions.filterMap id).filter (fun e => !e.isFolder) |>.foldl
    (fun (acc : List String × OpLog) e =>
      if lookupKey acc.2 e.path = some Op.modify then
        if !(jsTruthy (pathToId e.path)) then (acc.1, setKey acc.2 e.path Op.create)
        else acc
      else (acc.1 ++ [e.path], acc.2)) ([], ops)
  let deletionPaths : List (Option String) := deletions.map (fun e => e.map (·.path))
  let folderStep := (deletions.filterMap id).filter (fun e => e.isFolder) |>.foldl
    (fun (acc : List String × OpLog) folder =>
      if jsTruthy (pathToId folder.path) then acc
      else if folder.children.any (fun c => !(deletionPaths.contains (some c))) then
        (acc.1 ++ [folder.path], acc.2)
      else (acc.1, setKey acc.2 folder.path Op.create)) ([], fileStep.2)
  ⟨folderStep.1, fileStep.1, folderStep.2⟩

/-- C2 evaluation at the failing input: a removed folder `A` that still has a
child `A/x` NOT in the deletion set is kept for local deletion with its log
entry untouched, and a removed folder `B` whose only child `B/y` IS in the
deletion set is excluded from local deletion and marked `create` — in both
directions the exact opposite of the claim (and of spec §4.4 step 6). -/
theorem folder_deletion_filter_inverted :
    (deleteFilesSelect [some ⟨"A", true, ["A/x"]⟩] (fun _ => none) []).deletedFolders
        = ["A"] ∧
      lookupKey (deleteFilesSelect [some ⟨"A", true, ["A/x"]⟩]
        (fun _ => none) []).ops "A" = none ∧
      (deleteFilesSelect [some ⟨"B", true, ["B/y"]⟩, some ⟨"B/y", false, []⟩]
        (fun _ => none) []).deletedFolders = [] ∧
      lookupKey (deleteFilesSelect [some ⟨"B", true, ["B/y"]⟩, some ⟨"B/y", false, []⟩]
        (fun _ => none) []).ops "B" = some Op.create := by
  refine ⟨rfl, rfl, rfl, rfl⟩

/-- JS `path.split("/").length`: one more than the number of slash characters
(empty segments count, exactly as in JS). -/
def depth (p : String) : Nat := (p.data.filter (fun c => decide (c = '/'))).length + 1

/-- Modelled from the spec: `foldersToBatches` lives in `helpers/drive.ts`,
which is not part of the provided sources; spec §4.2 defines it as grouping
directory paths by path-segment depth, with batches in ascending depth order
(batch k holds all paths at hierarchy depth k). -/
def foldersToBatches (paths : List String) : List (List String) :=
  let maxD := (paths.map depth).foldl max 0
  (List.range' 1 maxD).map (fun d => paths.filter (fun p => decide (depth p = d)))

/-- The persisted sync settings a push works on. -/
structure PushState where
  operations : OpLog
  driveIdToPath : List (String × String)
  lastSyncedAt : Nat
  changesToken : String
deriving DecidableEq, Repr

/-- External collaborators of a push run, as oracles: the config-flagged
remote search result (`none` is the failure sentinel), local existence and
vault lookups, and the id/sentinel results of each remote call. -/
structure PushEnv where
  configOnDrive : Option (List String)
  localExists : String → Bool
  vaultGet : String → Option VaultKind
  batchDeleteOk : Bool
  createFolderId : String → Option String
  uploadId : String → Option String
  configFilesToSync : List String
  configDir : String
  now : Nat
  newChangesToken : Option String

/-- Remote calls issued by the push phases, in order. -/
inductive RCall where
  | batchDeleteCall (ids : List (Option String))
  | createFolderCall (path : String)
  | uploadCall (path : String)
  | updateCall (id : Option String)
deriving DecidableEq, Repr

/-- How a push run ended. -/
inductive POutcome where
  | configFetchFailed
  | deleteFailed
  | tokenFailed
  | completed
deriving DecidableEq, Repr

/-- The inverse index `pathsToIds` recomputed from `driveIdToPath`. -/
def invertMap (m : List (String × String)) : List (String × String) :=
  m.map (fun kv => (kv.2, kv.1))

/-- The delete set of a push: the `delete` entries of the Operation Log plus
every config-flagged remote path whose local counterpart no longer exists. -/
def pushDeletes (st : PushState) (cfgs : List String) (env : PushEnv) : List String :=
  (st.operations.filter (fun kv => decide (kv.2 = Op.delete))).map (·.1) ++
    cfgs.filter (fun p => !env.localExists p)

/-- Result of the delete phase: aborted with the calls so far, or continue. -/
inductive PhaseResult where
  | aborted (calls : List RCall)
  | ok (st : PushState) (pti : List (String × String)) (calls : List RCall)

/-- Push delete phase (push.ts lines 403-411): one `batchDelete` call on the
ids of the delete set; a failure sentinel aborts the push; on success the code
runs `delete t.settings.driveIdToPath[path]` for each deleted PATH — note that
`driveIdToPath` is keyed by id, so this is modelled faithfully as `delKey` by
path on the id-keyed map. -/
def deletePhase (st : PushState) (env : PushEnv) (cfgs : List String) : PhaseResult :=
  let pti := invertMap st.driveIdToPath
  let dels := pushDeletes st cfgs env
  if dels = [] then .ok st pti []
  else
    let ids := dels.map (lookupKey pti)
    let call := RCall.batchDeleteCall ids
    if env.batchDeleteOk then
      .ok { st with driveIdToPath := dels.foldl delKey st.driveIdToPath } pti [call]
    else .aborted [call]

/-- Working state threaded through the later push phases. -/
structure PW where
  st : PushState
  pti : List (String × String)
  calls : List RCall

/-- Remote folder creation: on a sentinel failure a notice is shown and the
phase continues; on success the new id is recorded in both index directions. -/
def createFolderStep (env : PushEnv) (w : PW) (path : String) : PW :=
  let call := RCall.createFolderCall path
  match env.createFolderId path with
  | none => { w with calls := w.calls ++ [call] }
  | some id =>
    { st := { w.st with driveIdToPath := setKey w.st.driveIdToPath id path },
      pti := setKey w.pti path id,
      calls := w.calls ++ [call] }

/-- Remote file upload during the create phase: on success the new id is
recorded in `driveIdToPath` (the code does not extend `pathsToIds` here). -/
def uploadNoteStep (env : PushEnv) (w : PW) (path : String) : PW :=
  let call := RCall.uploadCall path
  match env.uploadId path with
  | none => { w with calls := w.calls ++ [call] }
  | some id =>
    { w with
        st := { w.st with driveIdToPath := setKey w.st.driveIdToPath id path },
        calls := w.calls ++ [call] }

/-- Push create phase: folders batched ancestor-first, then files. -/
def createPhase (env : PushEnv) (creates : List String) (w : PW) : PW :=
  if creates = [] then w
  else
    let folderPaths := creates.filter
      (fun p => decide (env.vaultGet p = some VaultKind.vfolder))
    let w1 := (foldersToBatches folderPaths).foldl
      (fun acc batch => batch.foldl (createFolderStep env) acc) w
    let notePaths := creates.filter
      (fun p => decide (env.vaultGet p = some VaultKind.vfile))
    notePaths.foldl (uploadNoteStep env) w1

/-- Push modify phase: one update call per modified file that still resolves
to a `TFile`, with the id taken from a freshly recomputed inverse index. -/
def modifyPhase (env : PushEnv) (modifies : List String) (w : PW) : PW :=
  if modifies = [] then w
  else
    let files := modifies.filter
      (fun p => decide (env.vaultGet p = some VaultKind.vfile))
    let pathToId := invertMap w.st.driveIdToPath
    files.foldl (fun acc path =>
      { acc with calls := acc.calls ++ [RCall.updateCall (lookupKey pathToId path)] }) w

/-- Characters of a path split on slashes (JS `path.split("/")`). -/
def splitSegs : List Char → List (List Char)
  | [] => [[]]
  | c :: rest =>
    if c = '/' then [] :: splitSegs rest
    else
      match splitSegs rest with
      | [] => [[c]]
      | s :: ss => (c :: s) :: ss

/-- JS `path.split("/")`. -/
def segsOf (p : String) : List String := (splitSegs p.data).map (fun l => ⟨l⟩)

/-- JS `parts.join("/")`. -/
def joinSegs : List String → String
  | [] => ""
  | [s] => s
  | s :: s2 :: rest => s ++ "/" ++ joinSegs (s2 :: rest)

/-- The proper ancestor prefixes of a path, shortest first (the `parts.slice(0,
i).join("/")` loop of push's config phase). -/
def ancestorsOf (path : String) : List String :=
  let parts := segsOf path
  (List.range' 1 (parts.length - 1)).map (fun i => joinSegs (parts.take i))

/-- Insertion-ordered set append (JS `Set.add`). -/
def dedupAppend (acc : List String) (x : String) : List String :=
  if acc.contains x then acc else acc ++ [x]

/-- Push config phase: collect the missing ancestor folders of the config
files, create them in depth batches, then update (when indexed) or upload each
config file, and finally push the settings snapshot `data.json`. -/
def configPhase (env : PushEnv) (w : PW) : PW :=
  let cfs := env.configFilesToSync
  let folders0 := cfs.foldl (fun acc p => (ancestorsOf p).foldl dedupAppend acc) []
  let foldersToCreate := folders0.filter (fun f => !(jsTruthy (lookupKey w.pti f)))
  let w1 :=
    if foldersToCreate = [] then w
    else (foldersToBatches foldersToCreate).foldl
      (fun acc batch => batch.foldl (createFolderStep env) acc) w
  let w2 := cfs.foldl (fun acc path =>
    if jsTruthy (lookupKey acc.pti path) then
      { acc with calls := acc.calls ++ [RCall.updateCall (lookupKey acc.pti path)] }
    else
      let call := RCall.uploadCall path
      match env.uploadId path with
      | none => { acc with calls := acc.calls ++ [call] }
      | some id =>
        { st := { acc.st with driveIdToPath := setKey acc.st.driveIdToPath id path },
          pti := setKey acc.pti path id,
          calls := acc.calls ++ [call] }) w1
  let dataPath := env.configDir ++ "/plugins/google-drive-sync/data.json"
  { w2 with calls := w2.calls ++ [RCall.updateCall (lookupKey w2.pti dataPath)] }

/-- Push epilogue: clear the Operation Log, then `endSync` advances
`lastSyncedAt` and — unless fetching a fresh token fails — `changesToken`. -/
def endPhase (env : PushEnv) (w : PW) : PushState × List RCall × POutcome :=
  let st2 := { w.st with operations := [], lastSyncedAt := env.now }
  match env.newChangesToken with
  | none => (st2, w.calls, POutcome.tokenFailed)
  | some tk => ({ st2 with changesToken := tk }, w.calls, POutcome.completed)

/-- The push phases from the post-confirmation, post-silent-pull snapshot on
(push.ts lines 377-604): partition the Operation Log, extend the delete set
with orphaned remote config objects, then delete / create / modify / config
phases and the epilogue. -/
def pushPhases (st : PushState) (env : PushEnv) : PushState × List RCall × POutcome :=
  match env.configOnDrive with
  | none => (st, [], POutcome.configFetchFailed)
  | some cfgs =>
    match deletePhase st env cfgs with
    | PhaseResult.aborted calls => (st, calls, POutcome.deleteFailed)
    | PhaseResult.ok st1 pti calls =>
      let creates := (st.operations.filter (fun kv => decide (kv.2 = Op.create))).map (·.1)
      let modifies := (st.operations.filter (fun kv => decide (kv.2 = Op.modify))).map (·.1)
      let w := createPhase env creates ⟨st1, pti, calls⟩
      let w2 := modifyPhase env modifies w
      let w3 := configPhase env w2
      endPhase env w3

/-- C6: when the batch remote-delete call of push's delete phase returns the
failure sentinel, push surfaces the error and halts at that phase: the state
is returned untouched (so the Operation Log still contains every delete-set
entry, is not cleared, and the Sync Checkpoint fields are not advanced), and
the only remote call ever issued is the batch delete — no create, upload or
update call runs. -/
theorem push_delete_failure_halts (st : PushState) (env : PushEnv) (cfgs : List String)
    (hc : env.configOnDrive = some cfgs)
    (hne : pushDeletes st cfgs env ≠ [])
    (hfail : env.batchDeleteOk = false) :
    pushPhases st env =
      (st, [RCall.batchDeleteCall ((pushDeletes st cfgs env).map
        (lookupKey (invertMap st.driveIdToPath)))], POutcome.deleteFailed) := by
  simp [pushPhases, hc, deletePhase, hne, hfail]

/-- Concrete state for the C6 witness. -/
def pushStW6 : PushState := ⟨[("x.md", Op.delete)], [("idX", "x.md")], 3, "t"⟩

/-- Concrete environment for the C6 witness: the batch delete fails. -/
def pushEnvW6 : PushEnv :=
  { configOnDrive := some [], localExists := fun _ => true, vaultGet := fun _ => none,
    batchDeleteOk := false, createFolderId := fun _ => none, uploadId := fun _ => none,
    configFilesToSync := [], configDir := ".obsidian", now := 9,
    newChangesToken := some "t2" }

/-- C6 witness: a push with one pending delete whose batch delete fails. -/
theorem push_delete_failure_halts_witness :
    (pushEnvW6.configOnDrive = some [] ∧ pushDeletes pushStW6 [] pushEnvW6 ≠ [] ∧
        pushEnvW6.batchDeleteOk = false) ∧
      pushPhases pushStW6 pushEnvW6 =
        (pushStW6, [RCall.batchDeleteCall ((pushDeletes pushStW6 [] pushEnvW6).map
          (lookupKey (invertMap pushStW6.driveIdToPath)))], POutcome.deleteFailed) :=
  ⟨⟨rfl, by decide, rfl⟩,
    push_delete_failure_halts pushStW6 pushEnvW6 [] rfl (by decide) rfl⟩

/-- Concrete state for the C7 evaluation: one pending delete of `a.md`, whose
remote object `id1` is in the Remote-ID Index. -/
def pushStW7 : PushState := ⟨[("a.md", Op.delete)], [("id1", "a.md")], 0, "tok"⟩

/-- Concrete environment for the C7 evaluation: every remote call succeeds. -/
def pushEnvW7 : PushEnv :=
  { configOnDrive := some [], localExists := fun _ => true, vaultGet := fun _ => none,
    batchDeleteOk := true, createFolderId := fun _ => none, uploadId := fun _ => none,
    configFilesToSync := [], configDir := ".obsidian", now := 1,
    newChangesToken := some "tok2" }

/-- C7 evaluation at the failing input: the batch delete of `a.md` (remote id
`id1`) succeeds and push completes, yet `driveIdToPath` still maps `id1` to
`a.md` afterwards — the cleanup `delete t.settings.driveIdToPath[path]` uses
the PATH as the key of an id-keyed map and removes nothing, contradicting the
claim (and the spec's index lifecycle) that deleted objects leave the index. -/
theorem deleted_path_survives_in_index :
    (pushPhases pushStW7 pushEnvW7).2.2 = POutcome.completed ∧
      (pushPhases pushStW7 pushEnvW7).2.1 =
        [RCall.batchDeleteCall [some "id1"], RCall.updateCall none] ∧
      lookupKey (pushPhases pushStW7 pushEnvW7).1.driveIdToPath "id1" = some "a.md" ∧
      lookupKey (pushPhases pushStW7 pushEnvW7).1.operations "a.md" = none := by
  refine ⟨rfl, rfl, rfl, rfl⟩

/-- One entry of the local store listing used by push's pre-confirmation
hidden-file scan (`getAllVaultFiles` walks the adapter). -/
structure LocalFile where
  path : String
  mtime : Nat
  isFolder : Bool
deriving DecidableEq, Repr

/-- Full state visible to push before the confirmation step: the persisted
settings, the local store listing, and whether the remote root folder exists. -/
structure PreState where
  operations : OpLog
  driveIdToPath : List (String × String)
  lastSyncedAt : Nat
  changesToken : String
  localFiles : List LocalFile
  remoteHasRoot : Bool

/-- External collaborators of the pre-confirmation part of push: the vault
index, the `searchHiddenFiles` result (path and modification time of each
hidden object on the remote), and local modification times. -/
structure PreEnv where
  vaultGet : String → Option VaultKind
  hiddenDriveFiles : List (String × Nat)
  vaultMtime : String → Nat

/-- Modelled from the spec: `getRootFolderId` lives in `helpers/drive.ts`,
which is not part of the provided sources; spec §4.3 step 1 describes it as an
idempotent lazy initialisation that ensures the remote root exists. -/
def ensureRoot (st : PreState) : PreState :=
  if st.remoteHasRoot then st else { st with remoteHasRoot := true }

/-- JS `path.split('/').pop().startsWith('.')`: does the file name (last
path segment) begin with a dot. -/
def hiddenName (p : String) : Bool :=
  match (p.data.reverse.takeWhile (fun c => decide (c ≠ '/'))).reverse with
  | [] => false
  | c :: _ => decide (c = '.')

/-- The hidden-file scan push runs BEFORE opening the confirmation modal
(push.ts lines 316-361): every local file whose name starts with a dot and
which passes `shouldSyncFile`, is untracked in the Operation Log, and is
visible in the vault gains a `create` entry when absent from the remote hidden
files, or a `modify` entry when it is a file newer than its remote
counterpart. -/
def hiddenScan (st : PreState) (env : PreEnv) : PreState :=
  let hid := st.localFiles.filter (fun f => hiddenName f.path && shouldSyncFile f.path)
  { st with
      operations := hid.foldl (fun ops f =>
        if (lookupKey ops f.path).isSome then ops
        else
          match env.vaultGet f.path with
          | none => ops
          | some vk =>
            match env.hiddenDriveFiles.find? (fun df => decide (df.1 = f.path)) with
            | none => setKey ops f.path Op.create
            | some df =>
              if vk = VaultKind.vfile ∧ env.vaultMtime f.path > df.2 then
                setKey ops f.path Op.modify
              else ops) st.operations }

/-- Everything push does before the user answers the confirmation modal; a
cancel answer makes `push` return right after this point, so this is the whole
effect of a cancelled push. -/
def pushCancelled (st : PreState) (env : PreEnv) : PreState :=
  hiddenScan (ensureRoot st) env

/-- Concrete state for the C5 counterexample: an untracked local hidden file
`.gitignore`. -/
def preStW5 : PreState :=
  ⟨[], [("idY", "n.md")], 7, "tk", [⟨".gitignore", 5, false⟩], true⟩

/-- Concrete environment for the C5 counterexample: the vault sees the hidden
file and the remote has no hidden objects. -/
def preEnvW5 : PreEnv :=
  ⟨fun _ => some VaultKind.vfile, [], fun _ => 5⟩

/-- C5 counterexample: cancelling the confirmation does NOT leave the
Operation Log as it was — the pre-confirmation hidden-file scan has already
recorded a `create` entry for `.gitignore`, which survives the cancel. -/
theorem cancelled_push_mutates_log :
    lookupKey preStW5.operations ".gitignore" = none ∧
      lookupKey (pushCancelled preStW5 preEnvW5).operations ".gitignore"
        = some Op.create := by
  refine ⟨rfl, ?_⟩
  rfl

/-- C5 (amended): if the user cancels push's confirmation step, push aborts
before any push phase: the Remote-ID Index, the Sync Checkpoint, the local
store and the remote store are unchanged (given the remote root already
exists), and the Operation Log is unchanged except that the pre-confirmation
hidden-file scan may have added `create` or `modify` entries for previously
untracked paths. -/
theorem cancelled_push_frame (st : PreState) (env : PreEnv)
    (hroot : st.remoteHasRoot = true) :
    (pushCancelled st env).driveIdToPath = st.driveIdToPath ∧
      (pushCancelled st env).lastSyncedAt = st.lastSyncedAt ∧
      (pushCancelled st env).changesToken = st.changesToken ∧
      (pushCancelled st env).localFiles = st.localFiles ∧
      (pushCancelled st env).remoteHasRoot = st.remoteHasRoot ∧
      ∀ p, lookupKey (pushCancelled st env).operations p = lookupKey st.operations p ∨
        (lookupKey st.operations p = none ∧
          (lookupKey (pushCancelled st env).operations p = some Op.create ∨
            lookupKey (pushCancelled st env).operations p = some Op.modify)) := by
  have hroot' : ensureRoot st = st := by simp [ensureRoot, hroot]
  unfold pushCancelled
  rw [hroot']
  refine ⟨rfl, rfl, rfl, rfl, rfl, ?_⟩
  unfold hiddenScan
  simp only
  generalize st.localFiles.filter (fun f => hiddenName f.path && shouldSyncFile f.path) = hid
  suffices h : ∀ (l : List LocalFile) (ops : OpLog),
      (∀ p, lookupKey ops p = lookupKey st.operations p ∨
        (lookupKey st.operations p = none ∧
          (lookupKey ops p = some Op.create ∨ lookupKey ops p = some Op.modify))) →
      ∀ p, lookupKey (l.foldl (fun ops f =>
        if (lookupKey ops f.path).isSome then ops
        else
          match env.vaultGet f.path with
          | none => ops
          | some vk =>
            match env.hiddenDriveFiles.find? (fun df => decide (df.1 = f.path)) with
            | none => setKey ops f.path Op.create
            | some df =>
              if vk = VaultKind.vfile ∧ env.vaultMtime f.path > df.2 then
                setKey ops f.path Op.modify
              else ops) ops) p = lookupKey st.operations p ∨
        (lookupKey st.operations p = none ∧
          (lookupKey (l.foldl _ ops) p = some Op.create ∨
            lookupKey (l.foldl _ ops) p = some Op.modify)) by
    exact h hid st.operations (fun p => Or.inl rfl)
  intro l
  induction l with
  | nil => intro ops hinv p; exact hinv p
  | cons f rest ih =>
    intro ops hinv p
    simp only [List.foldl_cons]
    apply ih
    intro q
    by_cases hq : lookupKey ops f.path |>.isSome
    · simpa [hq] using hinv q
    · rw [Bool.not_eq_true] at hq
      have hq2 : lookupKey ops f.path = none := by
        rcases hx : lookupKey ops f.path with _ | v
        · rfl
        · rw [hx] at hq
          simp at hq
      rcases henv : env.vaultGet f.path with _ | vk
      · simpa [hq, henv] using hinv q
      · rcases hfind : env.hiddenDriveFiles.find? (fun df => decide (df.1 = f.path)) with _ | df
        · by_cases hqp : q = f.path
          · subst hqp
            right
            have : lookupKey st.operations f.path = none := by
              rcases hinv f.path with h1 | h2
              · rw [← h1]; exact hq2
              · exact h2.1
            exact ⟨this, Or.inl (by simp [hq, henv, hfind, lookupKey_setKey_self])⟩
          · have := hinv q
            simpa [hq, henv, hfind, lookupKey_setKey_ne _ _ hqp] using this
        · by_cases hcond : vk = VaultKind.vfile ∧ env.vaultMtime f.path > df.2
          · by_cases hqp : q = f.path
            · subst hqp
              right
              have : lookupKey st.operations f.path = none := by
                rcases hinv f.path with h1 | h2
                · rw [← h1]; exact hq2
                · exact h2.1
              exact ⟨this, Or.inr (by simp [hq, henv, hfind, hcond, lookupKey_setKey_self])⟩
            · have := hinv q
              simpa [hq, henv, hfind, hcond, lookupKey_setKey_ne _ _ hqp] using this
          · simpa [hq, henv, hfind, hcond] using hinv q

/-- C5 witness for the amended claim: a concrete cancelled push with the
remote root present, evaluated at the scanned path. -/
theorem cancelled_push_frame_witness :
    preStW5.remoteHasRoot = true ∧
      ((pushCancelled preStW5 preEnvW5).driveIdToPath = preStW5.driveIdToPath ∧
        (lookupKey (pushCancelled preStW5 preEnvW5).operations ".gitignore"
            = lookupKey preStW5.operations ".gitignore" ∨
          (lookupKey preStW5.operations ".gitignore" = none ∧
            (lookupKey (pushCancelled preStW5 preEnvW5).operations ".gitignore"
                = some Op.create ∨
              lookupKey (pushCancelled preStW5 preEnvW5).operations ".gitignore"
                = some Op.modify)))) :=
  ⟨rfl, (cancelled_push_frame preStW5 preEnvW5 rfl).1,
    (cancelled_push_frame preStW5 preEnvW5 rfl).2.2.2.2.2 ".gitignore"⟩

/-- Type of a config-removal entry (`adapter.stat(path).type`). -/
inductive CType where
  | cfile
  | cfolder
deriving DecidableEq, Repr

/-- One filtered config deletion of pull's `deleteConfigs` step. -/
structure CEntry where
  path : String
  ctype : CType
deriving DecidableEq, Repr

/-- The configured disposal policy (`vault.getConfig("trashOption")`); any
value other than `local` or `system` takes the permanent-removal branch. -/
inductive Policy where
  | localTrash
  | systemTrash
  | permanentRemove
deriving DecidableEq, Repr

/-- Local disposal calls issued by `deleteConfigs`: `trashC` for the chosen
trash method (`adapter.trashLocal`/`adapter.trashSystem`), `removeC` for
`adapter.remove`, `rmdirC` for `adapter.rmdir`. -/
inductive DisposalCall where
  | trashC (path : String)
  | removeC (path : String)
  | rmdirC (path : String)
deriving DecidableEq, Repr

/-- The prune of the trash loop: drop every entry below the trashed folder and
the folder itself (`!path.startsWith(folder.path + "/") && path !== folder.path`). -/
def pruneCovered (l : List CEntry) (folder : String) : List CEntry :=
  l.filter (fun e => !(strSW e.path (folder ++ "/")) && !(decide (e.path = folder)))

/-- The folder entries of one depth still in the list (`foldersToDelete`). -/
def foldsAt (k : Nat) (cur : List CEntry) : List CEntry :=
  cur.filter (fun e => decide (e.ctype = CType.cfolder) && decide (depth e.path = k))

/-- Prune everything covered by each of the trashed folders in turn. -/
def pruneAll (folds : List CEntry) (cur : List CEntry) : List CEntry :=
  folds.foldl (fun c f => pruneCovered c f.path) cur

/-- The `for (let depth = 1; depth <= maxDepth; depth++)` trash loop: at each
depth, trash every folder entry of that depth still in the list, then prune
everything the trashed folders cover. Returns the surviving entries and the
trashed folder paths in call order. -/
def trashDepths : List Nat → List CEntry → List CEntry × List String
  | [], cur => (cur, [])
  | k :: rest, cur =>
    ((trashDepths rest (pruneAll (foldsAt k cur) cur)).1,
      (foldsAt k cur).map (·.path) ++
        (trashDepths rest (pruneAll (foldsAt k cur) cur)).2)

/-- JS `Math.max(...folders.map(f => depth(f.path)))` (callers guard against
an empty list; depths are at least 1, so the 0 seed is neutral). -/
def maxDepthOf (folders : List CEntry) : Nat :=
  (folders.map (fun e => depth e.path)).foldl max 0

/-- Emptiness probe of `adapter.list(folder)`: in a parent-closed local store
a directory has a direct child exactly when some stored path lies strictly
below it. -/
def fsHasBelow (fs : List String) (folder : String) : Bool :=
  fs.any (fun p => strSW p (folder ++ "/"))

/-- One permanent-removal batch: each folder is listed and, when empty,
removed with `rmdir`; within a batch all folders share a depth, so the
concurrent `Promise.all` is modelled sequentially. -/
def rmdirBatch (fs : List String) : List String → List String × List DisposalCall
  | [] => (fs, [])
  | f :: rest =>
    if fsHasBelow fs f then rmdirBatch fs rest
    else
      let r := rmdirBatch (fs.filter (fun p => !(decide (p = f)))) rest
      (r.1, DisposalCall.rmdirC f :: r.2)

/-- Walk the (deepest-first) folder batches of the permanent branch. -/
def batchWalk : List String → List (List String) → List DisposalCall
  | _, [] => []
  | fs, batch :: rest =>
    (rmdirBatch fs batch).2 ++ batchWalk (rmdirBatch fs batch).1 rest

/-- Pull's `deleteConfigs` disposal step (src lines 236-300), given the
filtered config deletions, the disposal policy, and the local store contents.
Trash policies: the depth loop (ascending) over folder entries followed by the
final pass over the surviving entries, all through the chosen trash method.
Permanent removal: `adapter.remove` for the files, then the reversed depth
batches of the folders with `rmdir` on each folder found empty. -/
def trashBranchCalls (entries : List CEntry) : List DisposalCall :=
  let folders := entries.filter (fun e => decide (e.ctype = CType.cfolder))
  let r :=
    if folders = [] then (entries, ([] : List String))
    else trashDepths (List.range' 1 (maxDepthOf folders)) entries
  r.2.map DisposalCall.trashC ++ r.1.map (fun e => DisposalCall.trashC e.path)

def deleteConfigsModel (entries : List CEntry) (policy : Policy)
    (fs : List String) : List DisposalCall :=
  match policy with
  | Policy.permanentRemove =>
    let files := entries.filter (fun e => decide (e.ctype = CType.cfile))
    let removeCalls := files.map (fun e => DisposalCall.removeC e.path)
    let fs1 := fs.filter (fun p => !(files.any (fun e => decide (e.path = p))))
    let folderPaths :=
      (entries.filter (fun e => decide (e.ctype = CType.cfolder))).map (·.path)
    removeCalls ++ batchWalk fs1 (foldersToBatches folderPaths).reverse
  | _ => trashBranchCalls entries

/-- Does some occurrence of `x` appear strictly before an occurrence of `y`. -/
def occursBeforeIn {α : Type} [DecidableEq α] (x y : α) : List α → Bool
  | [] => false
  | a :: rest => if a = x then decide (y ∈ rest) else occursBeforeIn x y rest

/-- C9 counterexample: removed directories `A` and `A/b` under the local-trash
policy produce the single disposal call `trash A` — the descendant `A/b` never
receives a call, so its disposal is NOT issued before the ancestor's, refuting
the claimed decreasing-depth processing for the trash policies. -/
theorem trash_disposal_is_ancestor_first :
    deleteConfigsModel [⟨"A", CType.cfolder⟩, ⟨"A/b", CType.cfolder⟩]
        Policy.localTrash ["A", "A/b"] = [DisposalCall.trashC "A"] ∧
      occursBeforeIn (DisposalCall.trashC "A/b") (DisposalCall.trashC "A")
        (deleteConfigsModel [⟨"A", CType.cfolder⟩, ⟨"A/b", CType.cfolder⟩]
          Policy.localTrash ["A", "A/b"]) = false := by
  refine ⟨rfl, rfl⟩

theorem chLead_iff (xs : List Char) : ∀ l, chLead xs l = true ↔ ∃ t, l = xs ++ t := by
  induction xs with
  | nil =>
    intro l
    simp [chLead]
  | cons a as ih =>
    intro l
    cases l with
    | nil => simp [chLead]
    | cons b bs =>
      simp only [chLead, Bool.and_eq_true, decide_eq_true_eq, ih]
      constructor
      · rintro ⟨rfl, t, rfl⟩
        exact ⟨t, rfl⟩
      · rintro ⟨t, ht⟩
        injection ht with h1 h2
        exact ⟨h1.symm, t, h2⟩

theorem strSW_iff {p q : String} : strSW p q = true ↔ ∃ t, p.data = q.data ++ t :=
  chLead_iff q.data p.data

theorem depth_lt_of_desc {d a : String} (h : strSW d (a ++ "/") = true) :
    depth a < depth d := by
  rw [strSW_iff] at h
  obtain ⟨t, ht⟩ := h
  rw [String.data_append] at ht
  have hslash : ("/" : String).data = ['/'] := rfl
  rw [hslash] at ht
  rw [depth, depth, ht, List.append_assoc, List.filter_append, List.length_append,
    List.filter_append, List.length_append]
  simp [List.filter]

theorem strSW_trans_slash {d b f : String} (h1 : strSW d (b ++ "/") = true)
    (h2 : strSW b (f ++ "/") = true) : strSW d (f ++ "/") = true := by
  rw [strSW_iff] at h1 h2 ⊢
  obtain ⟨t1, ht1⟩ := h1
  obtain ⟨t2, ht2⟩ := h2
  refine ⟨t2 ++ ['/'] ++ t1, ?_⟩
  have hslash : ("/" : String).data = ['/'] := rfl
  rw [ht1, String.data_append, hslash, ht2, String.data_append, hslash]
  simp [List.append_assoc]

theorem pairwise_lt_range' (s n : Nat) : (List.range' s n).Pairwise (· < ·) := by
  induction n generalizing s with
  | zero => simp
  | succ n ih =>
    rw [List.range'_succ]
    refine List.Pairwise.cons ?_ (ih (s + 1))
    intro x hx
    have := List.mem_range'_1.mp hx
    omega

theorem init_le_foldl_max (l : List Nat) (a : Nat) : a ≤ l.foldl max a := by
  induction l generalizing a with
  | nil => exact Nat.le_refl a
  | cons y ys ih =>
    exact Nat.le_trans (Nat.le_max_left a y) (ih (max a y))

theorem le_foldl_max : ∀ (l : List Nat) (a x : Nat), x ∈ l → x ≤ l.foldl max a := by
  intro l
  induction l with
  | nil => intro a x hx; cases hx
  | cons y ys ih =>
    intro a x hx
    rcases List.mem_cons.mp hx with rfl | hx2
    · exact Nat.le_trans (Nat.le_max_right a x) (init_le_foldl_max ys (max a x))
    · exact ih (max a y) x hx2

theorem mem_pruneCovered {l : List CEntry} {folder : String} {e : CEntry} :
    e ∈ pruneCovered l folder ↔
      e ∈ l ∧ strSW e.path (folder ++ "/") = false ∧ e.path ≠ folder := by
  simp only [pruneCovered, List.mem_filter, Bool.and_eq_true, Bool.not_eq_true',
    decide_eq_false_iff_not]

theorem mem_foldl_prune (fs : List CEntry) : ∀ (cur : List CEntry) (e : CEntry),
    e ∈ fs.foldl (fun c f => pruneCovered c f.path) cur ↔
      e ∈ cur ∧ ∀ f ∈ fs, strSW e.path (f.path ++ "/") = false ∧ e.path ≠ f.path := by
  induction fs with
  | nil => simp
  | cons f rest ih =>
    intro cur e
    simp only [List.foldl_cons, ih, mem_pruneCovered, List.mem_cons]
    constructor
    · rintro ⟨⟨he, h1, h2⟩, hall⟩
      refine ⟨he, fun g hg => ?_⟩
      rcases hg with rfl | hg
      · exact ⟨h1, h2⟩
      · exact hall g hg
    · rintro ⟨he, hall⟩
      exact ⟨⟨he, (hall f (Or.inl rfl)).1, (hall f (Or.inl rfl)).2⟩,
        fun g hg => hall g (Or.inr hg)⟩

theorem mem_foldsAt {k : Nat} {cur : List CEntry} {e : CEntry} :
    e ∈ foldsAt k cur ↔ e ∈ cur ∧ e.ctype = CType.cfolder ∧ depth e.path = k := by
  simp [foldsAt, List.mem_filter]

theorem mem_pruneAll {fs cur : List CEntry} {e : CEntry} :
    e ∈ pruneAll fs cur ↔
      e ∈ cur ∧ ∀ f ∈ fs, strSW e.path (f.path ++ "/") = false ∧ e.path ≠ f.path :=
  mem_foldl_prune fs cur e

theorem trashDepths_no_descendant_call :
    ∀ (ds : List Nat) (cur : List CEntry) (d : String),
      ds.Pairwise (· < ·) →
      ((∃ b ∈ cur, b.ctype = CType.cfolder ∧ strSW d (b.path ++ "/") = true ∧
          depth b.path ∈ ds) ∨ (∀ e ∈ cur, e.path ≠ d)) →
      d ∉ (trashDepths ds cur).2 ∧ ∀ e ∈ (trashDepths ds cur).1, e.path ≠ d := by
  intro ds
  induction ds with
  | nil =>
    intro cur d _ hinv
    refine ⟨by simp [trashDepths], ?_⟩
    intro e he
    rcases hinv with ⟨b, _, _, _, hdep⟩ | habs
    · simp at hdep
    · exact habs e (by simpa [trashDepths] using he)
  | cons k rest ih =>
    intro cur d hpw hinv
    obtain ⟨hk, hrest⟩ := List.pairwise_cons.mp hpw
    have hnotsel : d ∉ (foldsAt k cur).map (·.path) := by
      intro hx
      obtain ⟨e, hef, hep⟩ := List.mem_map.mp hx
      obtain ⟨hecur, _, hedep⟩ := mem_foldsAt.mp hef
      rcases hinv with ⟨b, hb, hbf, hbdesc, hbdep⟩ | habs
      · have hdlt : depth b.path < depth d := depth_lt_of_desc hbdesc
        rw [hep] at hedep
        rcases List.mem_cons.mp hbdep with hbk | hbk'
        · omega
        · have := hk _ hbk'
          omega
      · exact habs e hecur hep
    have key : (∃ b ∈ pruneAll (foldsAt k cur) cur, b.ctype = CType.cfolder ∧
        strSW d (b.path ++ "/") = true ∧ depth b.path ∈ rest) ∨
        (∀ e ∈ pruneAll (foldsAt k cur) cur, e.path ≠ d) := by
      rcases hinv with ⟨b, hb, hbf, hbdesc, hbdep⟩ | habs
      · rcases List.mem_cons.mp hbdep with hbk | hbk'
        · right
          intro e he hed
          have hbfolds : b ∈ foldsAt k cur := mem_foldsAt.mpr ⟨hb, hbf, hbk⟩
          obtain ⟨_, hall⟩ := mem_pruneAll.mp he
          have := (hall b hbfolds).1
          rw [hed] at this
          rw [this] at hbdesc
          cases hbdesc
        · by_cases hbcur2 : b ∈ pruneAll (foldsAt k cur) cur
          · exact Or.inl ⟨b, hbcur2, hbf, hbdesc, hbk'⟩
          · have hnall : ¬ ∀ f ∈ foldsAt k cur,
                strSW b.path (f.path ++ "/") = false ∧ b.path ≠ f.path := by
              intro hall
              exact hbcur2 (mem_pruneAll.mpr ⟨hb, hall⟩)
            push_neg at hnall
            obtain ⟨f, hf, hviol⟩ := hnall
            by_cases hsw : strSW b.path (f.path ++ "/") = true
            · right
              intro e he hed
              obtain ⟨_, hall⟩ := mem_pruneAll.mp he
              have hdf : strSW d (f.path ++ "/") = true := strSW_trans_slash hbdesc hsw
              have := (hall f hf).1
              rw [hed] at this
              rw [this] at hdf
              cases hdf
            · exfalso
              rw [Bool.not_eq_true] at hsw
              have hbp : b.path = f.path := hviol hsw
              have hdepf : depth f.path = k := (mem_foldsAt.mp hf).2.2
              have := hk _ hbk'
              rw [hbp, hdepf] at this
              omega
      · right
        intro e he
        exact habs e (mem_pruneAll.mp he).1
    have hih := ih (pruneAll (foldsAt k cur) cur) d hrest key
    refine ⟨?_, ?_⟩
    · intro hx
      simp only [trashDepths, List.mem_append] at hx
      rcases hx with hx | hx
      · exact hnotsel hx
      · exact hih.1 hx
    · intro e he
      simp only [trashDepths] at he
      exact hih.2 e he

/-- Path depth of a disposal call. -/
def dcDepth : DisposalCall → Nat
  | .trashC p => depth p
  | .removeC p => depth p
  | .rmdirC p => depth p

theorem rmdirBatch_calls : ∀ (b fs : List String) (c : DisposalCall),
    c ∈ (rmdirBatch fs b).2 → ∃ p ∈ b, c = DisposalCall.rmdirC p := by
  intro b
  induction b with
  | nil =>
    intro fs c hc
    simp [rmdirBatch] at hc
  | cons f rest ih =>
    intro fs c hc
    by_cases hbelow : fsHasBelow fs f = true
    · have heq : rmdirBatch fs (f :: rest) = rmdirBatch fs rest := by
        simp [rmdirBatch, hbelow]
      rw [heq] at hc
      obtain ⟨p, hp, hcp⟩ := ih fs c hc
      exact ⟨p, List.mem_cons_of_mem _ hp, hcp⟩
    · have heq : rmdirBatch fs (f :: rest) =
          ((rmdirBatch (fs.filter (fun p => !(decide (p = f)))) rest).1,
            DisposalCall.rmdirC f ::
              (rmdirBatch (fs.filter (fun p => !(decide (p = f)))) rest).2) := by
        simp [rmdirBatch, hbelow]
      rw [heq] at hc
      rcases List.mem_cons.mp hc with rfl | hc2
      · exact ⟨f, List.mem_cons_self .., rfl⟩
      · obtain ⟨p, hp, hcp⟩ := ih _ c hc2
        exact ⟨p, List.mem_cons_of_mem _ hp, hcp⟩

theorem batchWalk_calls : ∀ (bs : List (List String)) (fs : List String)
    (c : DisposalCall), c ∈ batchWalk fs bs →
      ∃ b ∈ bs, ∃ p ∈ b, c = DisposalCall.rmdirC p := by
  intro bs
  induction bs with
  | nil =>
    intro fs c hc
    simp [batchWalk] at hc
  | cons b rest ih =>
    intro fs c hc
    simp only [batchWalk, List.mem_append] at hc
    rcases hc with hc | hc
    · obtain ⟨p, hp, hcp⟩ := rmdirBatch_calls b fs c hc
      exact ⟨b, List.mem_cons_self .., p, hp, hcp⟩
    · obtain ⟨b2, hb2, p, hp, hcp⟩ := ih _ c hc
      exact ⟨b2, List.mem_cons_of_mem _ hb2, p, hp, hcp⟩

theorem batchWalk_pairwise : ∀ (bs : List (List String)) (fs : List String),
    bs.Pairwise (fun b1 b2 => ∀ p ∈ b1, ∀ q ∈ b2, depth q < depth p) →
    (∀ b ∈ bs, ∀ p ∈ b, ∀ q ∈ b, depth p = depth q) →
    (batchWalk fs bs).Pairwise (fun c1 c2 => dcDepth c2 ≤ dcDepth c1) := by
  intro bs
  induction bs with
  | nil =>
    intro fs _ _
    simp [batchWalk]
  | cons b rest ih =>
    intro fs hcross huni
    obtain ⟨hb_cross, hcross'⟩ := List.pairwise_cons.mp hcross
    simp only [batchWalk]
    rw [List.pairwise_append]
    refine ⟨?_, ih _ hcross' (fun b2 hb2 => huni b2 (List.mem_cons_of_mem _ hb2)), ?_⟩
    · apply List.pairwise_of_forall_mem_list
      intro c1 h1 c2 h2
      obtain ⟨p1, hp1, rfl⟩ := rmdirBatch_calls b fs c1 h1
      obtain ⟨p2, hp2, rfl⟩ := rmdirBatch_calls b fs c2 h2
      have := huni b (List.mem_cons_self ..) p2 hp2 p1 hp1
      simp only [dcDepth]
      omega
    · intro c1 h1 c2 h2
      obtain ⟨p1, hp1, rfl⟩ := rmdirBatch_calls b fs c1 h1
      obtain ⟨b2, hb2, p2, hp2, rfl⟩ := batchWalk_calls rest _ c2 h2
      have := hb_cross b2 hb2 p1 hp1 p2 hp2
      simp only [dcDepth]
      omega

theorem occursBeforeIn_of_pairwise {α : Type} [DecidableEq α] (f : α → Nat) :
    ∀ (l : List α) (x y : α), l.Pairwise (fun c1 c2 => f c2 ≤ f c1) → x ∈ l → y ∈ l →
      f y < f x → occursBeforeIn x y l = true := by
  intro l
  induction l with
  | nil =>
    intro x y _ hx
    cases hx
  | cons h t ih =>
    intro x y hpw hx hy hlt
    obtain ⟨hhead, htail⟩ := List.pairwise_cons.mp hpw
    rw [occursBeforeIn]
    by_cases hhx : h = x
    · rw [if_pos hhx]
      have hyt : y ∈ t := by
        rcases List.mem_cons.mp hy with rfl | hy2
        · subst hhx
          omega
        · exact hy2
      simp [hyt]
    · rw [if_neg hhx]
      have hxt : x ∈ t := by
        rcases List.mem_cons.mp hx with rfl | hx2
        · exact absurd rfl hhx
        · exact hx2
      have hyt : y ∈ t := by
        rcases List.mem_cons.mp hy with rfl | hy2
        · have := hhead x hxt
          omega
        · exact hy2
      exact ih x y htail hxt hyt hlt

theorem occursBeforeIn_append_left {α : Type} [DecidableEq α] (x y : α) :
    ∀ (pre l : List α), x ∉ pre →
      occursBeforeIn x y (pre ++ l) = occursBeforeIn x y l := by
  intro pre
  induction pre with
  | nil =>
    intro l _
    rfl
  | cons a pre' ih =>
    intro l hx
    have hax : ¬(a = x) := fun h => hx (h ▸ List.mem_cons_self ..)
    rw [List.cons_append, occursBeforeIn, if_neg hax]
    exact ih l (fun h => hx (List.mem_cons_of_mem _ h))

theorem perm_branch_order (files : List CEntry) (fs1 : List String)
    (folderPaths : List String) (d a : String)
    (hdesc : strSW d (a ++ "/") = true)
    (hd : DisposalCall.rmdirC d ∈ files.map (fun e => DisposalCall.removeC e.path) ++
      batchWalk fs1 (foldersToBatches folderPaths).reverse)
    (ha : DisposalCall.rmdirC a ∈ files.map (fun e => DisposalCall.removeC e.path) ++
      batchWalk fs1 (foldersToBatches folderPaths).reverse) :
    occursBeforeIn (DisposalCall.rmdirC d) (DisposalCall.rmdirC a)
      (files.map (fun e => DisposalCall.removeC e.path) ++
        batchWalk fs1 (foldersToBatches folderPaths).reverse) = true := by
  have hnotrm : ∀ x : String,
      DisposalCall.rmdirC x ∉ files.map (fun e => DisposalCall.removeC e.path) := by
    intro x hx
    obtain ⟨e, _, hinj⟩ := List.mem_map.mp hx
    cases hinj
  have hdwalk : DisposalCall.rmdirC d ∈
      batchWalk fs1 (foldersToBatches folderPaths).reverse := by
    rcases List.mem_append.mp hd with hx | hx
    · exact absurd hx (hnotrm d)
    · exact hx
  have hawalk : DisposalCall.rmdirC a ∈
      batchWalk fs1 (foldersToBatches folderPaths).reverse := by
    rcases List.mem_append.mp ha with hx | hx
    · exact absurd hx (hnotrm a)
    · exact hx
  have huni : ∀ b ∈ (foldersToBatches folderPaths).reverse,
      ∀ p ∈ b, ∀ q ∈ b, depth p = depth q := by
    intro b hb
    rw [List.mem_reverse] at hb
    simp only [foldersToBatches] at hb
    obtain ⟨dd, _, rfl⟩ := List.mem_map.mp hb
    intro p hp q hq
    have hp2 := (List.mem_filter.mp hp).2
    have hq2 := (List.mem_filter.mp hq).2
    simp only [decide_eq_true_eq] at hp2 hq2
    omega
  have hcross : ((foldersToBatches folderPaths).reverse).Pairwise
      (fun b1 b2 => ∀ p ∈ b1, ∀ q ∈ b2, depth q < depth p) := by
    rw [List.pairwise_reverse]
    simp only [foldersToBatches]
    rw [List.pairwise_map]
    refine List.Pairwise.imp ?_ (pairwise_lt_range' 1 _)
    intro d1 d2 h12 p hp q hq
    have hp2 := (List.mem_filter.mp hp).2
    have hq2 := (List.mem_filter.mp hq).2
    simp only [decide_eq_true_eq] at hp2 hq2
    omega
  have hpwcalls := batchWalk_pairwise ((foldersToBatches folderPaths).reverse) fs1
    hcross huni
  have hlt : dcDepth (DisposalCall.rmdirC a) < dcDepth (DisposalCall.rmdirC d) := by
    simp only [dcDepth]
    exact depth_lt_of_desc hdesc
  rw [occursBeforeIn_append_left _ _ _ _ (hnotrm d)]
  exact occursBeforeIn_of_pairwise dcDepth _ _ _ hpwcalls hdwalk hawalk hlt

/-- C9 (amended): in pull's internal/config removal phase, under the
permanent-removal policy the `rmdir` calls are issued children-first (reversed
depth batches), so for every pair of removed directories where one is an
ancestor of the other and both receive a disposal call, the descendant's call
is issued before the ancestor's. Under the local- and system-trash policies
the claimed decreasing-depth order does NOT hold: the depth loop runs in
increasing depth order and prunes everything a trashed folder covers, so a
removed directory lying below another removed directory receives no disposal
call of its own at all (it is disposed of together with its topmost trashed
ancestor). -/
theorem delete_configs_disposal_order (entries : List CEntry) (fs : List String)
    (d a : String) (hdesc : strSW d (a ++ "/") = true) :
    (∀ policy, policy ≠ Policy.permanentRemove →
        CEntry.mk a CType.cfolder ∈ entries →
        DisposalCall.trashC d ∉ deleteConfigsModel entries policy fs) ∧
      (DisposalCall.rmdirC d ∈ deleteConfigsModel entries Policy.permanentRemove fs →
        DisposalCall.rmdirC a ∈ deleteConfigsModel entries Policy.permanentRemove fs →
        occursBeforeIn (DisposalCall.rmdirC d) (DisposalCall.rmdirC a)
          (deleteConfigsModel entries Policy.permanentRemove fs) = true) := by
  constructor
  · intro policy hpol ha hmem
    have hbranch : deleteConfigsModel entries policy fs = trashBranchCalls entries := by
      cases policy
      · rfl
      · rfl
      · exact absurd rfl hpol
    rw [hbranch] at hmem
    have hafold : CEntry.mk a CType.cfolder ∈
        entries.filter (fun e => decide (e.ctype = CType.cfolder)) :=
      List.mem_filter.mpr ⟨ha, by simp⟩
    have hfne : entries.filter (fun e => decide (e.ctype = CType.cfolder)) ≠ [] :=
      List.ne_nil_of_mem hafold
    have hdmem : depth a ∈ List.range' 1
        (maxDepthOf (entries.filter (fun e => decide (e.ctype = CType.cfolder)))) := by
      rw [List.mem_range'_1]
      have h1 : 1 ≤ depth a := by
        unfold depth
        omega
      have h2 : depth a ≤
          maxDepthOf (entries.filter (fun e => decide (e.ctype = CType.cfolder))) := by
        apply le_foldl_max
        exact List.mem_map.mpr ⟨CEntry.mk a CType.cfolder, hafold, rfl⟩
      omega
    have hmain := trashDepths_no_descendant_call
      (List.range' 1
        (maxDepthOf (entries.filter (fun e => decide (e.ctype = CType.cfolder)))))
      entries d (pairwise_lt_range' 1 _)
      (Or.inl ⟨CEntry.mk a CType.cfolder, ha, rfl, hdesc, hdmem⟩)
    simp only [trashBranchCalls] at hmem
    rw [if_neg hfne] at hmem
    rcases List.mem_append.mp hmem with hx | hx
    · obtain ⟨p, hp, hinj⟩ := List.mem_map.mp hx
      injection hinj with hpd
      rw [hpd] at hp
      exact hmain.1 hp
    · obtain ⟨e, he, hinj⟩ := List.mem_map.mp hx
      injection hinj with hed
      exact hmain.2 e he hed
  · intro h1 h2
    simp only [deleteConfigsModel] at h1 h2 ⊢
    exact perm_branch_order _ _ _ d a hdesc h1 h2

/-- C9 witness: removed directories `A` and `A/b`; under local trash the
descendant `A/b` gets no call, and under permanent removal (with both
directories present and empty-able locally) its `rmdir` precedes the
ancestor's. -/
theorem delete_configs_disposal_order_witness :
    strSW "A/b" ("A" ++ "/") = true ∧
      DisposalCall.trashC "A/b" ∉
        deleteConfigsModel [⟨"A", CType.cfolder⟩, ⟨"A/b", CType.cfolder⟩]
          Policy.localTrash ["A", "A/b"] ∧
      occursBeforeIn (DisposalCall.rmdirC "A/b") (DisposalCall.rmdirC "A")
        (deleteConfigsModel [⟨"A", CType.cfolder⟩, ⟨"A/b", CType.cfolder⟩]
          Policy.permanentRemove ["A", "A/b"]) = true :=
  ⟨by decide,
    (delete_configs_disposal_order [⟨"A", CType.cfolder⟩, ⟨"A/b", CType.cfolder⟩]
      ["A", "A/b"] "A/b" "A" (by decide)).1 Policy.localTrash (by decide) (by decide),
    (delete_configs_disposal_order [⟨"A", CType.cfolder⟩, ⟨"A/b", CType.cfolder⟩]
      ["A", "A/b"] "A/b" "A" (by decide)).2 (by decide) (by decide)⟩
